import Mathlib

/-!
Shallow embedding of the coupon-distribution core of `src/app.py`.

Randomness model: Python's `random.choice(l)` is modelled as drawing the head
of an explicit stream of natural numbers `rng : Nat → Nat` and selecting
`l[rng 0 % len l]`; the computation continues with the shifted stream
`fun k => rng (k + 1)`.  Quantifying over `rng` quantifies over all possible
sequences of random choices.
-/

namespace Rshree

/-- The fixed denomination list `COUPON_VALUES = [250, 500, 1000, 2000]` of `src/app.py`. -/
def COUPON_VALUES : List Nat := [250, 500, 1000, 2000]

/-- Python's `min(COUPON_VALUES)`. -/
def minCoupon : Nat := COUPON_VALUES.minimum?.getD 0

/-- Selection of one element of a (nonempty) list by a raw random draw `r`:
`random.choice(l)` with the draw `r` selecting index `r % len l`. -/
def choose (l : List Nat) (r : Nat) : Nat := l.getD (r % l.length) 0

/-- The random stream after one draw has been consumed. -/
def rshift (rng : Nat → Nat) : Nat → Nat := fun k => rng (k + 1)

/-- A stream whose first draw is `r` and whose later draws come from `rng`. -/
def rcons (r : Nat) (rng : Nat → Nat) : Nat → Nat :=
  fun k => match k with
  | 0 => r
  | k + 1 => rng k

/-- Seeding loop of `generate_coupon_distribution` (lines 20-35 of `src/app.py`):
walk the positions in order; stop when `remaining` hits 0; at each position
upgrade to a random denomination strictly above the current value whose cost
increase fits in `remaining`, if any exists.  Returns the new distribution, the
final `remaining`, and the unconsumed part of the random stream. -/
def seedGo : List Nat → Nat → (Nat → Nat) → List Nat × Nat × (Nat → Nat)
  | [], remaining, rng => ([], remaining, rng)
  | cur :: rest, remaining, rng =>
    if remaining = 0 then (cur :: rest, remaining, rng)
    else
      let valid_upgrades := COUPON_VALUES.filter fun v => decide (cur < v ∧ v - cur ≤ remaining)
      if valid_upgrades = [] then
        let out := seedGo rest remaining rng
        (cur :: out.1, out.2.1, out.2.2)
      else
        let new_value := choose valid_upgrades (rng 0)
        let out := seedGo rest (remaining - (new_value - cur)) (rshift rng)
        (new_value :: out.1, out.2.1, out.2.2)

/-- One adjustment round of `generate_coupon_distribution` (the inner `for` of
lines 41-58 of `src/app.py`): `acc` is the reversed already-visited prefix;
at each position recompute the total, break early on exact match, otherwise
replace by a random qualifying increase (when below target) or decrease (when
above target), if any exists. -/
def adjGo (target : Nat) : List Nat → List Nat → (Nat → Nat) → List Nat × (Nat → Nat)
  | acc, [], rng => (acc.reverse, rng)
  | acc, cur :: rest, rng =>
    let current_sum := acc.sum + (cur :: rest).sum
    if current_sum = target then (acc.reverse ++ cur :: rest, rng)
    else if current_sum < target then
      let diff := target - current_sum
      let possible_increases := COUPON_VALUES.filter fun v => decide (cur < v ∧ v - cur ≤ diff)
      if possible_increases = [] then adjGo target (cur :: acc) rest rng
      else adjGo target (choose possible_increases (rng 0) :: acc) rest (rshift rng)
    else
      let diff := current_sum - target
      let possible_decreases := COUPON_VALUES.filter fun v => decide (v < cur ∧ cur - v ≤ diff)
      if possible_decreases = [] then adjGo target (cur :: acc) rest rng
      else adjGo target (choose possible_decreases (rng 0) :: acc) rest (rshift rng)

/-- The `while sum(distribution) != target_amount and attempts < 1000` loop of
lines 38-58 of `src/app.py`, with `fuel` the rounds still allowed.  Returns the
distribution, the unconsumed stream, and the unused part of the round budget
(so the budget was exhausted exactly when the third component is 0). -/
def adjustLoop (target : Nat) : Nat → List Nat → (Nat → Nat) → List Nat × (Nat → Nat) × Nat
  | 0, dist, rng => (dist, rng, 0)
  | fuel + 1, dist, rng =>
    if dist.sum = target then (dist, rng, fuel + 1)
    else
      let out := adjGo target [] dist rng
      adjustLoop target fuel out.1 out.2

/-- The whole of `generate_coupon_distribution(target_amount, num_coupons)`
(lines 7-60 of `src/app.py`), with the random stream made explicit: the
feasibility guard, the seeding phase, and up to 1000 adjustment rounds.
Also returns the unconsumed stream and the unused round budget. -/
def generateS (target_amount num_coupons : Nat) (rng : Nat → Nat) :
    Option (List Nat) × (Nat → Nat) × Nat :=
  if target_amount < num_coupons * minCoupon then (none, rng, 1000)
  else
    let distribution := List.replicate num_coupons minCoupon
    let remaining := target_amount - distribution.sum
    let seeded := seedGo distribution remaining rng
    let adjusted := adjustLoop target_amount 1000 seeded.1 seeded.2.2
    (some adjusted.1, adjusted.2.1, adjusted.2.2)

/-- The value `generate_coupon_distribution` returns to its caller. -/
def generate_coupon_distribution (rng : Nat → Nat) (target_amount num_coupons : Nat) :
    Option (List Nat) :=
  (generateS target_amount num_coupons rng).1

/-- Python's `tuple(sorted(distribution))`: the ascending sorted form used for
duplicate detection in `generate_alternative_combinations`. -/
def sortedForm (l : List Nat) : List Nat := l.insertionSort (· ≤ ·)

/-- The attempt loop of `generate_alternative_combinations` (lines 67-75 of
`src/app.py`): call the generator, keep the result when it is truthy and sums
to the target and its sorted form is new, stop once `num_alternatives` have
been collected or the attempts run out.  Also returns the unconsumed stream
and the number of generator invocations made. -/
def altGo (target_amount num_coupons num_alternatives : Nat) :
    Nat → List (List Nat) → (Nat → Nat) → Nat → List (List Nat) × (Nat → Nat) × Nat
  | 0, alternatives, rng, calls => (alternatives, rng, calls)
  | fuel + 1, alternatives, rng, calls =>
    let gen := generateS target_amount num_coupons rng
    match gen.1 with
    | none => altGo target_amount num_coupons num_alternatives fuel alternatives gen.2.1 (calls + 1)
    | some distribution =>
      if distribution ≠ [] ∧ distribution.sum = target_amount then
        if sortedForm distribution ∈ alternatives.map sortedForm then
          altGo target_amount num_coupons num_alternatives fuel alternatives gen.2.1 (calls + 1)
        else
          let alternatives2 := alternatives ++ [distribution]
          if num_alternatives ≤ alternatives2.length then (alternatives2, gen.2.1, calls + 1)
          else altGo target_amount num_coupons num_alternatives fuel alternatives2 gen.2.1 (calls + 1)
      else altGo target_amount num_coupons num_alternatives fuel alternatives gen.2.1 (calls + 1)

/-- The value `generate_alternative_combinations(target_amount, num_coupons,
num_alternatives)` (lines 62-77 of `src/app.py`) returns: up to 100 attempts,
starting from an empty list of alternatives. -/
def generate_alternative_combinations (rng : Nat → Nat)
    (target_amount num_coupons num_alternatives : Nat) : List (List Nat) :=
  (altGo target_amount num_coupons num_alternatives 100 [] rng 0).1

/-- Number of times `generate_alternative_combinations` invokes the
distribution generator. -/
def generatorInvocations (rng : Nat → Nat)
    (target_amount num_coupons num_alternatives : Nat) : Nat :=
  (altGo target_amount num_coupons num_alternatives 100 [] rng 0).2.2

/-! ### Basic facts about the randomness model and the denomination list -/

theorem minCoupon_eq : minCoupon = 250 := rfl

theorem choose_mem (l : List Nat) (r : Nat) (h : l ≠ []) : choose l r ∈ l := by
  have hlen : 0 < l.length := List.length_pos.mpr h
  have hm : r % l.length < l.length := Nat.mod_lt _ hlen
  unfold choose
  rw [List.getD_eq_getElem?_getD, List.getElem?_eq_getElem hm]
  exact List.getElem_mem hm

theorem choose_indexOf (l : List Nat) (a : Nat) (h : a ∈ l) : choose l (l.indexOf a) = a := by
  have hlt : l.indexOf a < l.length := List.indexOf_lt_length.mpr h
  unfold choose
  rw [Nat.mod_eq_of_lt hlt, List.getD_eq_getElem?_getD, List.getElem?_eq_getElem hlt]
  simp [List.getElem_indexOf]

theorem rshift_rcons (r : Nat) (rng : Nat → Nat) : rshift (rcons r rng) = rng := rfl

theorem rcons_zero (r : Nat) (rng : Nat → Nat) : rcons r rng 0 = r := rfl

theorem mem_coupon_values_ge (x : Nat) (h : x ∈ COUPON_VALUES) : 250 ≤ x := by
  fin_cases h <;> decide

theorem mem_coupon_values_le (x : Nat) (h : x ∈ COUPON_VALUES) : x ≤ 2000 := by
  fin_cases h <;> decide

theorem sum_ge_of_mem (l : List Nat) (h : ∀ x ∈ l, x ∈ COUPON_VALUES) :
    250 * l.length ≤ l.sum := by
  induction l with
  | nil => simp
  | cons a t ih =>
    have ha := mem_coupon_values_ge a (h a (by simp))
    have ht := ih fun x hx => h x (by simp [hx])
    simp only [List.sum_cons, List.length_cons]
    omega

theorem sum_le_of_mem (l : List Nat) (h : ∀ x ∈ l, x ∈ COUPON_VALUES) :
    l.sum ≤ 2000 * l.length := by
  induction l with
  | nil => simp
  | cons a t ih =>
    have ha := mem_coupon_values_le a (h a (by simp))
    have ht := ih fun x hx => h x (by simp [hx])
    simp only [List.sum_cons, List.length_cons]
    omega

/-! ### Invariants of the seeding phase -/

theorem seedGo_length (dist : List Nat) :
    ∀ rem rng, (seedGo dist rem rng).1.length = dist.length := by
  induction dist with
  | nil => intro rem rng; simp [seedGo]
  | cons cur rest ih =>
    intro rem rng
    simp only [seedGo]
    split
    · simp
    · split <;> simp [ih]

theorem seedGo_mem (dist : List Nat) :
    ∀ rem rng, (∀ x ∈ dist, x ∈ COUPON_VALUES) →
      ∀ x ∈ (seedGo dist rem rng).1, x ∈ COUPON_VALUES := by
  induction dist with
  | nil => intro rem rng h; simp [seedGo]
  | cons cur rest ih =>
    intro rem rng h
    simp only [seedGo]
    split
    · exact h
    · split
      · intro x hx
        rcases List.mem_cons.mp hx with hx | hx
        · exact hx ▸ h cur (by simp)
        · exact ih rem rng (fun y hy => h y (by simp [hy])) x hx
      · next hne =>
        intro x hx
        rcases List.mem_cons.mp hx with hx | hx
        · have hc := choose_mem _ (rng 0) hne
          exact hx ▸ (List.mem_filter.mp hc).1
        · exact ih _ (rshift rng) (fun y hy => h y (by simp [hy])) x hx

theorem seedGo_sum (dist : List Nat) :
    ∀ rem rng, (seedGo dist rem rng).1.sum + (seedGo dist rem rng).2.1 = dist.sum + rem := by
  induction dist with
  | nil => intro rem rng; simp [seedGo]
  | cons cur rest ih =>
    intro rem rng
    simp only [seedGo]
    split
    · simp
    · split
      · have := ih rem rng
        simp only [List.sum_cons]
        omega
      · next hne =>
        have hc := choose_mem _ (rng 0) hne
        have hprop := (List.mem_filter.mp hc).2
        have hprop2 := of_decide_eq_true hprop
        obtain ⟨hlt, hle⟩ := hprop2
        have := ih (rem - (choose (COUPON_VALUES.filter fun v =>
          decide (cur < v ∧ v - cur ≤ rem)) (rng 0) - cur)) (rshift rng)
        simp only [List.sum_cons]
        omega

/-! ### Invariants of the adjustment phase -/

theorem coupon_gap (cur v : Nat) (hc : cur ∈ COUPON_VALUES) (hv : v ∈ COUPON_VALUES)
    (h : cur < v) : cur + 250 ≤ v := by
  fin_cases hc <;> fin_cases hv <;> omega

theorem adjGo_length (target : Nat) (l : List Nat) :
    ∀ acc rng, (adjGo target acc l rng).1.length = acc.length + l.length := by
  induction l with
  | nil => intro acc rng; simp [adjGo]
  | cons cur rest ih =>
    intro acc rng
    simp only [adjGo]
    split
    · simp
    · split <;> split <;> simp [ih] <;> omega

theorem adjGo_mem (target : Nat) (l : List Nat) :
    ∀ acc rng, (∀ x ∈ acc, x ∈ COUPON_VALUES) → (∀ x ∈ l, x ∈ COUPON_VALUES) →
      ∀ x ∈ (adjGo target acc l rng).1, x ∈ COUPON_VALUES := by
  induction l with
  | nil =>
    intro acc rng hacc hl x hx
    exact hacc x (by simpa [adjGo] using hx)
  | cons cur rest ih =>
    intro acc rng hacc hl
    have hcur : cur ∈ COUPON_VALUES := hl cur (by simp)
    have hrest : ∀ x ∈ rest, x ∈ COUPON_VALUES := fun x hx => hl x (by simp [hx])
    have hcons : ∀ x ∈ cur :: acc, x ∈ COUPON_VALUES := by
      intro x hx
      rcases List.mem_cons.mp hx with rfl | hx
      · exact hcur
      · exact hacc x hx
    by_cases h1 : acc.sum + (cur :: rest).sum = target
    · simp only [adjGo, if_pos h1]
      intro x hx
      rcases List.mem_append.mp hx with hx | hx
      · exact hacc x (List.mem_reverse.mp hx)
      · exact hl x hx
    · by_cases h2 : acc.sum + (cur :: rest).sum < target
      · by_cases hemp : COUPON_VALUES.filter
            (fun v => decide (cur < v ∧ v - cur ≤ target - (acc.sum + (cur :: rest).sum))) = []
        · simp only [adjGo, if_neg h1, if_pos h2, if_pos hemp]
          exact ih _ rng hcons hrest
        · have hc := choose_mem _ (rng 0) hemp
          have hchoice : ∀ x ∈ choose (COUPON_VALUES.filter
              (fun v => decide (cur < v ∧ v - cur ≤ target - (acc.sum + (cur :: rest).sum))))
                (rng 0) :: acc, x ∈ COUPON_VALUES := by
            intro x hx
            rcases List.mem_cons.mp hx with rfl | hx
            · exact (List.mem_filter.mp hc).1
            · exact hacc x hx
          simp only [adjGo, if_neg h1, if_pos h2, if_neg hemp]
          exact ih _ (rshift rng) hchoice hrest
      · by_cases hemp : COUPON_VALUES.filter
            (fun v => decide (v < cur ∧ cur - v ≤ acc.sum + (cur :: rest).sum - target)) = []
        · simp only [adjGo, if_neg h1, if_neg h2, if_pos hemp]
          exact ih _ rng hcons hrest
        · have hc := choose_mem _ (rng 0) hemp
          have hchoice : ∀ x ∈ choose (COUPON_VALUES.filter
              (fun v => decide (v < cur ∧ cur - v ≤ acc.sum + (cur :: rest).sum - target)))
                (rng 0) :: acc, x ∈ COUPON_VALUES := by
            intro x hx
            rcases List.mem_cons.mp hx with rfl | hx
            · exact (List.mem_filter.mp hc).1
            · exact hacc x hx
          simp only [adjGo, if_neg h1, if_neg h2, if_neg hemp]
          exact ih _ (rshift rng) hchoice hrest

theorem adjGo_sum_le (target : Nat) (l : List Nat) :
    ∀ acc rng, acc.sum + l.sum ≤ target →
      (adjGo target acc l rng).1.sum ≤ target := by
  induction l with
  | nil =>
    intro acc rng h
    simp only [adjGo, List.sum_reverse]
    simp only [List.sum_nil] at h
    omega
  | cons cur rest ih =>
    intro acc rng h
    by_cases h1 : acc.sum + (cur :: rest).sum = target
    · simp only [adjGo, if_pos h1, List.sum_append, List.sum_reverse]
      omega
    · have h2 : acc.sum + (cur :: rest).sum < target := lt_of_le_of_ne h h1
      by_cases hemp : COUPON_VALUES.filter
          (fun v => decide (cur < v ∧ v - cur ≤ target - (acc.sum + (cur :: rest).sum))) = []
      · simp only [adjGo, if_neg h1, if_pos h2, if_pos hemp]
        apply ih
        simp only [List.sum_cons] at h ⊢
        omega
      · have hc := choose_mem _ (rng 0) hemp
        obtain ⟨hgt, hle⟩ := of_decide_eq_true (List.mem_filter.mp hc).2
        simp only [adjGo, if_neg h1, if_pos h2, if_neg hemp]
        apply ih
        simp only [List.sum_cons] at h hgt hle ⊢
        omega

theorem adjGo_sum_ge (target : Nat) (l : List Nat) :
    ∀ acc rng, acc.sum + l.sum ≤ target →
      acc.sum + l.sum ≤ (adjGo target acc l rng).1.sum := by
  induction l with
  | nil =>
    intro acc rng h
    simp [adjGo, List.sum_reverse]
  | cons cur rest ih =>
    intro acc rng h
    by_cases h1 : acc.sum + (cur :: rest).sum = target
    · simp only [adjGo, if_pos h1]
      simp only [List.sum_append, List.sum_reverse, List.sum_cons]
      omega
    · have h2 : acc.sum + (cur :: rest).sum < target := lt_of_le_of_ne h h1
      by_cases hemp : COUPON_VALUES.filter
          (fun v => decide (cur < v ∧ v - cur ≤ target - (acc.sum + (cur :: rest).sum))) = []
      · have := ih (cur :: acc) rng (by simp only [List.sum_cons] at h ⊢; omega)
        simp only [adjGo, if_neg h1, if_pos h2, if_pos hemp]
        simp only [List.sum_cons] at this ⊢
        omega
      · have hc := choose_mem _ (rng 0) hemp
        obtain ⟨hgt, hle⟩ := of_decide_eq_true (List.mem_filter.mp hc).2
        simp only [adjGo, if_neg h1, if_pos h2, if_neg hemp]
        have := ih (choose (COUPON_VALUES.filter
            (fun v => decide (cur < v ∧ v - cur ≤ target - (acc.sum + (cur :: rest).sum))))
              (rng 0) :: acc) (rshift rng)
          (by simp only [List.sum_cons] at h hgt hle ⊢; omega)
        simp only [List.sum_cons] at this hgt hle ⊢
        omega

/-- A state can still move towards the target: some position holds a value with
a strictly larger denomination whose increase fits in the remaining deficit. -/
def canMove (l : List Nat) (diff : Nat) : Prop :=
  ∃ cur ∈ l, ∃ v ∈ COUPON_VALUES, cur < v ∧ v - cur ≤ diff

theorem adjGo_progress (target : Nat) (l : List Nat) :
    ∀ acc rng, (∀ x ∈ l, x ∈ COUPON_VALUES) →
      acc.sum + l.sum < target →
      canMove l (target - (acc.sum + l.sum)) →
      acc.sum + l.sum + 250 ≤ (adjGo target acc l rng).1.sum := by
  induction l with
  | nil =>
    intro acc rng _ _ hmove
    obtain ⟨cur, hcur, _⟩ := hmove
    exact absurd hcur (List.not_mem_nil cur)
  | cons cur rest ih =>
    intro acc rng hmem hlt hmove
    have hcur : cur ∈ COUPON_VALUES := hmem cur (by simp)
    have hrest : ∀ x ∈ rest, x ∈ COUPON_VALUES := fun x hx => hmem x (by simp [hx])
    have h1 : acc.sum + (cur :: rest).sum ≠ target := Nat.ne_of_lt hlt
    by_cases hemp : COUPON_VALUES.filter
        (fun v => decide (cur < v ∧ v - cur ≤ target - (acc.sum + (cur :: rest).sum))) = []
    · obtain ⟨c, hc, v, hv, hcv, hvd⟩ := hmove
      rcases List.mem_cons.mp hc with rfl | hc
      · exfalso
        have hprop : c < v ∧ v - c ≤ target - (acc.sum + (c :: rest).sum) := ⟨hcv, hvd⟩
        have hmemf : v ∈ COUPON_VALUES.filter
            (fun w => decide (c < w ∧ w - c ≤ target - (acc.sum + (c :: rest).sum))) :=
          List.mem_filter.mpr ⟨hv, decide_eq_true hprop⟩
        rw [hemp] at hmemf
        exact List.not_mem_nil v hmemf
      · have hmove2 : canMove rest (target - ((cur :: acc).sum + rest.sum)) := by
          refine ⟨c, hc, v, hv, hcv, ?_⟩
          simp only [List.sum_cons] at hvd ⊢
          omega
        have := ih (cur :: acc) rng hrest
          (by simp only [List.sum_cons] at hlt ⊢; omega) hmove2
        simp only [adjGo, if_neg h1, if_pos hlt, if_pos hemp]
        simp only [List.sum_cons] at this ⊢
        omega
    · have hc := choose_mem _ (rng 0) hemp
      have hcv : choose (COUPON_VALUES.filter
          (fun v => decide (cur < v ∧ v - cur ≤ target - (acc.sum + (cur :: rest).sum))))
            (rng 0) ∈ COUPON_VALUES := (List.mem_filter.mp hc).1
      obtain ⟨hgt, hle⟩ := of_decide_eq_true (List.mem_filter.mp hc).2
      have hgap := coupon_gap cur _ hcur hcv hgt
      have hge := adjGo_sum_ge target rest (choose (COUPON_VALUES.filter
          (fun v => decide (cur < v ∧ v - cur ≤ target - (acc.sum + (cur :: rest).sum))))
            (rng 0) :: acc) (rshift rng)
        (by simp only [List.sum_cons] at hlt hgt hle ⊢; omega)
      simp only [adjGo, if_neg h1, if_pos hlt, if_neg hemp]
      simp only [List.sum_cons] at hge hgap hgt hle hlt ⊢
      omega
/-! ### Invariants of the bounded adjustment loop -/

theorem adjustLoop_length (target : Nat) :
    ∀ fuel dist rng, (adjustLoop target fuel dist rng).1.length = dist.length := by
  intro fuel
  induction fuel with
  | zero => intro dist rng; simp [adjustLoop]
  | succ fuel ih =>
    intro dist rng
    simp only [adjustLoop]
    split
    · simp
    · rw [ih]
      simpa using adjGo_length target dist [] rng

theorem adjustLoop_mem (target : Nat) :
    ∀ fuel dist rng, (∀ x ∈ dist, x ∈ COUPON_VALUES) →
      ∀ x ∈ (adjustLoop target fuel dist rng).1, x ∈ COUPON_VALUES := by
  intro fuel
  induction fuel with
  | zero => intro dist rng h; simpa [adjustLoop] using h
  | succ fuel ih =>
    intro dist rng h
    simp only [adjustLoop]
    split
    · exact h
    · exact ih _ _ (adjGo_mem target dist [] rng (by simp) h)

theorem adjustLoop_sum_le (target : Nat) :
    ∀ fuel dist rng, dist.sum ≤ target →
      (adjustLoop target fuel dist rng).1.sum ≤ target := by
  intro fuel
  induction fuel with
  | zero => intro dist rng h; simpa [adjustLoop] using h
  | succ fuel ih =>
    intro dist rng h
    simp only [adjustLoop]
    split
    · exact h
    · exact ih _ _ (adjGo_sum_le target dist [] rng (by simpa using h))

theorem adjustLoop_of_sum_eq (target fuel : Nat) (dist : List Nat) (rng : Nat → Nat)
    (h : dist.sum = target) : (adjustLoop target fuel dist rng).1 = dist := by
  cases fuel <;> simp [adjustLoop, h]

theorem adjustLoop_reaches (target n : Nat)
    (hcan : ∀ dist : List Nat, dist.length = n → (∀ x ∈ dist, x ∈ COUPON_VALUES) →
      dist.sum < target → canMove dist (target - dist.sum)) :
    ∀ fuel dist rng, dist.length = n → (∀ x ∈ dist, x ∈ COUPON_VALUES) →
      dist.sum ≤ target → target ≤ dist.sum + 250 * fuel →
      (adjustLoop target fuel dist rng).1.sum = target := by
  intro fuel
  induction fuel with
  | zero =>
    intro dist rng _ _ hle hge
    simp only [adjustLoop]
    omega
  | succ fuel ih =>
    intro dist rng hlen hmem hle hge
    simp only [adjustLoop]
    split
    · next heq => exact heq
    · next hne =>
      have hlt : dist.sum < target := lt_of_le_of_ne hle hne
      have hmove := hcan dist hlen hmem hlt
      have hprog := adjGo_progress target dist [] rng hmem (by simpa using hlt)
        (by simpa using hmove)
      simp only [List.sum_nil, Nat.zero_add, List.nil_append] at hprog
      have hlen2 : (adjGo target [] dist rng).1.length = n := by
        rw [adjGo_length]
        simpa using hlen
      exact ih _ _ hlen2 (adjGo_mem target dist [] rng (by simp) hmem)
        (adjGo_sum_le target dist [] rng (by simpa using hle)) (by omega)

theorem adjustLoop_exhaust (target : Nat) :
    ∀ fuel dist rng, (∀ x ∈ dist, x ∈ COUPON_VALUES) →
      2000 * dist.length < target →
      (adjustLoop target fuel dist rng).2.2 = 0 := by
  intro fuel
  induction fuel with
  | zero => intro dist rng _ _; simp [adjustLoop]
  | succ fuel ih =>
    intro dist rng hmem hbig
    simp only [adjustLoop]
    split
    · next heq =>
      exfalso
      have := sum_le_of_mem dist hmem
      omega
    · have hlen2 := adjGo_length target dist [] rng
      refine ih _ _ (adjGo_mem target dist [] rng (by simp) hmem) ?_
      simp only [List.length_nil, Nat.zero_add] at hlen2
      omega

/-! ### Facts about the whole distribution generator -/

theorem generateS_eq_none (target count : Nat) (rng : Nat → Nat)
    (h : target < count * minCoupon) : generateS target count rng = (none, rng, 1000) := by
  simp [generateS, h]

theorem generate_eq (target count : Nat) (rng : Nat → Nat) (h : ¬ target < count * minCoupon) :
    generate_coupon_distribution rng target count =
      some (adjustLoop target 1000
        (seedGo (List.replicate count minCoupon)
          (target - (List.replicate count minCoupon).sum) rng).1
        (seedGo (List.replicate count minCoupon)
          (target - (List.replicate count minCoupon).sum) rng).2.2).1 := by
  unfold generate_coupon_distribution generateS
  rw [if_neg h]

theorem replicate_sum (count : Nat) : (List.replicate count minCoupon).sum = count * 250 := by
  simp [minCoupon_eq, List.sum_replicate, smul_eq_mul]

theorem replicate_mem (count : Nat) :
    ∀ x ∈ List.replicate count minCoupon, x ∈ COUPON_VALUES := by
  intro x hx
  rw [List.eq_of_mem_replicate hx, minCoupon_eq]
  decide

theorem generate_some (rng : Nat → Nat) (target count : Nat) (h : count * 250 ≤ target) :
    ∃ l, generate_coupon_distribution rng target count = some l ∧
      l.length = count ∧ (∀ x ∈ l, x ∈ COUPON_VALUES) ∧ l.sum ≤ target := by
  have hg : ¬ target < count * minCoupon := by rw [minCoupon_eq]; omega
  rw [generate_eq target count rng hg]
  refine ⟨_, rfl, ?_, ?_, ?_⟩
  · rw [adjustLoop_length, seedGo_length]
    simp
  · exact adjustLoop_mem target 1000 _ _
      (seedGo_mem _ _ rng (replicate_mem count))
  · apply adjustLoop_sum_le
    have hs := seedGo_sum (List.replicate count minCoupon)
      (target - (List.replicate count minCoupon).sum) rng
    have h0 := replicate_sum count
    omega

theorem generate_inv (rng : Nat → Nat) (target count : Nat) (l : List Nat)
    (hl : generate_coupon_distribution rng target count = some l) :
    l.length = count ∧ (∀ x ∈ l, x ∈ COUPON_VALUES) := by
  by_cases h : target < count * minCoupon
  · have := generateS_eq_none target count rng h
    unfold generate_coupon_distribution at hl
    rw [this] at hl
    exact absurd hl (by simp)
  · have h2 : count * 250 ≤ target := by rw [minCoupon_eq] at h; omega
    obtain ⟨l2, hl2, hlen, hmem, _⟩ := generate_some rng target count h2
    rw [hl] at hl2
    obtain rfl : l = l2 := by injection hl2
    exact ⟨hlen, hmem⟩

theorem generate_over_budget (rng : Nat → Nat) (target count : Nat)
    (h : 2000 * count < target) :
    ∃ l, generate_coupon_distribution rng target count = some l ∧
      l.length = count ∧ l.sum < target ∧ (generateS target count rng).2.2 = 0 := by
  have h2 : count * 250 ≤ target := by nlinarith
  have hg : ¬ target < count * minCoupon := by rw [minCoupon_eq]; omega
  obtain ⟨l, hl, hlen, hmem, _⟩ := generate_some rng target count h2
  refine ⟨l, hl, hlen, ?_, ?_⟩
  · have := sum_le_of_mem l hmem
    rw [hlen] at this
    omega
  · unfold generateS
    rw [if_neg hg]
    have hslen : (seedGo (List.replicate count minCoupon)
        (target - (List.replicate count minCoupon).sum) rng).1.length = count := by
      rw [seedGo_length]
      simp
    apply adjustLoop_exhaust
    · exact seedGo_mem _ _ rng (replicate_mem count)
    · rw [hslen]
      omega

/-! ### The two concrete scenarios: target 1000 with 1 coupon, target 4000 with 2 coupons -/

theorem canMove_1000_1 : ∀ dist : List Nat, dist.length = 1 →
    (∀ x ∈ dist, x ∈ COUPON_VALUES) → dist.sum < 1000 → canMove dist (1000 - dist.sum) := by
  intro dist hlen hmem hsum
  obtain ⟨a, rfl⟩ := List.length_eq_one.mp hlen
  have ha := hmem a (by simp)
  fin_cases ha
  · exact ⟨250, by simp, 500, by decide, by decide, by decide⟩
  · exact ⟨500, by simp, 1000, by decide, by decide, by decide⟩
  · exact absurd hsum (by decide)
  · exact absurd hsum (by decide)

theorem generate_1000_1 (rng : Nat → Nat) :
    generate_coupon_distribution rng 1000 1 = some [1000] := by
  have hg : ¬ (1000 : Nat) < 1 * minCoupon := by rw [minCoupon_eq]; omega
  rw [generate_eq 1000 1 rng hg]
  have hlen : (seedGo (List.replicate 1 minCoupon)
      (1000 - (List.replicate 1 minCoupon).sum) rng).1.length = 1 := by
    rw [seedGo_length]
    simp
  have hmem := seedGo_mem (List.replicate 1 minCoupon)
    (1000 - (List.replicate 1 minCoupon).sum) rng (replicate_mem 1)
  have hs := seedGo_sum (List.replicate 1 minCoupon)
    (1000 - (List.replicate 1 minCoupon).sum) rng
  rw [replicate_sum 1] at hs
  have hsle : (seedGo (List.replicate 1 minCoupon)
      (1000 - (List.replicate 1 minCoupon).sum) rng).1.sum ≤ 1000 := by
    rw [replicate_sum 1]
    omega
  have hreach := adjustLoop_reaches 1000 1 canMove_1000_1 1000 _
    (seedGo (List.replicate 1 minCoupon) (1000 - (List.replicate 1 minCoupon).sum) rng).2.2
    hlen hmem hsle (by omega)
  have hrlen : (adjustLoop 1000 1000
      (seedGo (List.replicate 1 minCoupon) (1000 - (List.replicate 1 minCoupon).sum) rng).1
      (seedGo (List.replicate 1 minCoupon) (1000 - (List.replicate 1 minCoupon).sum) rng).2.2).1.length
        = 1 := by
    rw [adjustLoop_length]
    exact hlen
  obtain ⟨a, hae⟩ := List.length_eq_one.mp hrlen
  rw [hae] at hreach
  simp only [List.sum_cons, List.sum_nil, Nat.add_zero] at hreach
  rw [hae, hreach]

theorem canMove_4000_2 : ∀ dist : List Nat, dist.length = 2 →
    (∀ x ∈ dist, x ∈ COUPON_VALUES) → dist.sum < 4000 → canMove dist (4000 - dist.sum) := by
  intro dist hlen hmem hsum
  obtain ⟨a, b, rfl⟩ := List.length_eq_two.mp hlen
  have ha := hmem a (by simp)
  have hb := hmem b (by simp)
  fin_cases ha <;> fin_cases hb <;> first
    | exact absurd hsum (by decide)
    | (unfold canMove; decide)

theorem generate_4000_2 (rng : Nat → Nat) :
    generate_coupon_distribution rng 4000 2 = some [2000, 2000] := by
  have hg : ¬ (4000 : Nat) < 2 * minCoupon := by rw [minCoupon_eq]; omega
  rw [generate_eq 4000 2 rng hg]
  have hlen : (seedGo (List.replicate 2 minCoupon)
      (4000 - (List.replicate 2 minCoupon).sum) rng).1.length = 2 := by
    rw [seedGo_length]
    simp
  have hmem := seedGo_mem (List.replicate 2 minCoupon)
    (4000 - (List.replicate 2 minCoupon).sum) rng (replicate_mem 2)
  have hs := seedGo_sum (List.replicate 2 minCoupon)
    (4000 - (List.replicate 2 minCoupon).sum) rng
  rw [replicate_sum 2] at hs
  have hsle : (seedGo (List.replicate 2 minCoupon)
      (4000 - (List.replicate 2 minCoupon).sum) rng).1.sum ≤ 4000 := by
    rw [replicate_sum 2]
    omega
  have hreach := adjustLoop_reaches 4000 2 canMove_4000_2 1000 _
    (seedGo (List.replicate 2 minCoupon) (4000 - (List.replicate 2 minCoupon).sum) rng).2.2
    hlen hmem hsle (by omega)
  have hrlen : (adjustLoop 4000 1000
      (seedGo (List.replicate 2 minCoupon) (4000 - (List.replicate 2 minCoupon).sum) rng).1
      (seedGo (List.replicate 2 minCoupon) (4000 - (List.replicate 2 minCoupon).sum) rng).2.2).1.length
        = 2 := by
    rw [adjustLoop_length]
    exact hlen
  have hrmem := adjustLoop_mem 4000 1000
    (seedGo (List.replicate 2 minCoupon) (4000 - (List.replicate 2 minCoupon).sum) rng).1
    (seedGo (List.replicate 2 minCoupon) (4000 - (List.replicate 2 minCoupon).sum) rng).2.2 hmem
  obtain ⟨a, b, hab⟩ := List.length_eq_two.mp hrlen
  rw [hab] at hreach hrmem
  have ha := mem_coupon_values_le a (hrmem a (by simp))
  have hb := mem_coupon_values_le b (hrmem b (by simp))
  simp only [List.sum_cons, List.sum_nil, Nat.add_zero] at hreach
  have hae : a = 2000 := by omega
  have hbe : b = 2000 := by omega
  rw [hab, hae, hbe]

/-! ### Reachability: a favourable random stream drives the seeding phase to any
representable multiset, provided the multiset is tried in descending order -/

theorem seedGo_zero (dist : List Nat) (rng : Nat → Nat) :
    seedGo dist 0 rng = (dist, 0, rng) := by
  cases dist <;> simp [seedGo]

theorem seed_reach (goal : List Nat) (hmem : ∀ x ∈ goal, x ∈ COUPON_VALUES)
    (hsort : goal.Sorted (· ≥ ·)) :
    ∃ rng rest, seedGo (List.replicate goal.length minCoupon)
      (goal.sum - 250 * goal.length) rng = (goal, 0, rest) := by
  induction goal with
  | nil => exact ⟨fun _ => 0, fun _ => 0, rfl⟩
  | cons g gs ih =>
    have hg : g ∈ COUPON_VALUES := hmem g (by simp)
    have hgs : ∀ x ∈ gs, x ∈ COUPON_VALUES := fun x hx => hmem x (by simp [hx])
    obtain ⟨hdom, htail⟩ := List.sorted_cons.mp hsort
    have hge : 250 ≤ g := mem_coupon_values_ge g hg
    have hsge : 250 * gs.length ≤ gs.sum := sum_ge_of_mem gs hgs
    by_cases hg250 : g = 250
    · have hall : ∀ b ∈ g :: gs, b = minCoupon := by
        intro b hb
        rw [minCoupon_eq]
        rcases List.mem_cons.mp hb with rfl | hb
        · exact hg250
        · have h1 := mem_coupon_values_ge b (hgs b hb)
          have h2 := hdom b hb
          omega
      have hrep : g :: gs = List.replicate (g :: gs).length minCoupon :=
        List.eq_replicate_length.mpr hall
      have hzero : (g :: gs).sum - 250 * (g :: gs).length = 0 := by
        have : (g :: gs).sum = 250 * (g :: gs).length := by
          rw [hrep, minCoupon_eq, List.sum_replicate, smul_eq_mul, List.length_replicate]
          ring
        omega
      refine ⟨fun _ => 0, fun _ => 0, ?_⟩
      rw [hzero, seedGo_zero]
      rw [← hrep]
    · have hglt : 250 < g := lt_of_le_of_ne hge (Ne.symm hg250)
      obtain ⟨rngT, restT, ihEq⟩ := ih hgs htail
      have hsum_cons : (g :: gs).sum = g + gs.sum := by simp
      have hlen_cons : (g :: gs).length = gs.length + 1 := by simp
      set R := (g :: gs).sum - 250 * (g :: gs).length with hR
      have hRval : R = (g - 250) + (gs.sum - 250 * gs.length) := by
        rw [hR, hsum_cons, hlen_cons]
        omega
      have hR0 : R ≠ 0 := by omega
      have hgval : g ∈ COUPON_VALUES.filter
          (fun v => decide (minCoupon < v ∧ v - minCoupon ≤ R)) := by
        refine List.mem_filter.mpr ⟨hg, decide_eq_true ?_⟩
        rw [minCoupon_eq]
        exact ⟨hglt, by omega⟩
      have hvne : COUPON_VALUES.filter
          (fun v => decide (minCoupon < v ∧ v - minCoupon ≤ R)) ≠ [] :=
        List.ne_nil_of_mem hgval
      set valid := COUPON_VALUES.filter
        (fun v => decide (minCoupon < v ∧ v - minCoupon ≤ R)) with hvalid
      refine ⟨rcons (valid.indexOf g) rngT, restT, ?_⟩
      rw [hlen_cons, List.replicate_succ]
      simp only [seedGo]
      rw [if_neg hR0, minCoupon_eq] at *
      rw [← hvalid, if_neg hvne]
      have hchoice : choose valid (rcons (valid.indexOf g) rngT 0) = g := by
        rw [rcons_zero]
        exact choose_indexOf valid g hgval
      rw [hchoice, rshift_rcons]
      have hrem : R - (g - 250) = gs.sum - 250 * gs.length := by omega
      rw [hrem, ihEq]

theorem generate_reaches (target count : Nat)
    (hrep : ∃ l : List Nat, l.length = count ∧ (∀ x ∈ l, x ∈ COUPON_VALUES) ∧ l.sum = target) :
    ∃ rng l, generate_coupon_distribution rng target count = some l ∧
      l.length = count ∧ (∀ x ∈ l, x ∈ COUPON_VALUES) ∧ l.sum = target := by
  obtain ⟨l0, hlen0, hmem0, hsum0⟩ := hrep
  have hperm : List.Perm (l0.insertionSort (· ≥ ·)) l0 := List.perm_insertionSort (· ≥ ·) l0
  set goal := l0.insertionSort (· ≥ ·) with hgoal
  have hlen : goal.length = count := by rw [hperm.length_eq, hlen0]
  have hmem : ∀ x ∈ goal, x ∈ COUPON_VALUES := fun x hx => hmem0 x (hperm.mem_iff.mp hx)
  have hsum : goal.sum = target := by rw [hperm.sum_eq, hsum0]
  have hsort : goal.Sorted (· ≥ ·) := List.sorted_insertionSort (· ≥ ·) l0
  obtain ⟨rng, rest, hseed⟩ := seed_reach goal hmem hsort
  have hfeas : count * 250 ≤ target := by
    have := sum_ge_of_mem goal hmem
    rw [hlen, hsum] at this
    omega
  have hg : ¬ target < count * minCoupon := by rw [minCoupon_eq]; omega
  refine ⟨rng, goal, ?_, hlen, hmem, hsum⟩
  rw [generate_eq target count rng hg]
  have e1 : List.replicate count minCoupon = List.replicate goal.length minCoupon := by
    rw [hlen]
  have e2 : target - (List.replicate count minCoupon).sum = goal.sum - 250 * goal.length := by
    rw [replicate_sum, hsum, hlen]
    omega
  rw [e2, e1, hseed]
  rw [adjustLoop_of_sum_eq target 1000 goal rest hsum]

/-! ### Invariants of the alternative-set builder -/

theorem altGo_sum_len (target count nalt : Nat) :
    ∀ fuel alts rng calls, (∀ l ∈ alts, l.sum = target ∧ l.length = count) →
      ∀ l ∈ (altGo target count nalt fuel alts rng calls).1,
        l.sum = target ∧ l.length = count := by
  intro fuel
  induction fuel with
  | zero => intro alts rng calls h; simpa [altGo] using h
  | succ fuel ih =>
    intro alts rng calls h
    simp only [altGo]
    split
    · exact ih _ _ _ h
    · next dist hgen =>
      by_cases hok : dist ≠ [] ∧ dist.sum = target
      · rw [if_pos hok]
        have hdist : generate_coupon_distribution rng target count = some dist := hgen
        have hlen := (generate_inv rng target count dist hdist).1
        have hnew : ∀ l ∈ alts ++ [dist], l.sum = target ∧ l.length = count := by
          intro l hl
          rcases List.mem_append.mp hl with hl | hl
          · exact h l hl
          · rw [List.mem_singleton.mp hl]
            exact ⟨hok.2, hlen⟩
        split
        · exact ih _ _ _ h
        · split
          · exact hnew
          · exact ih _ _ _ hnew
      · rw [if_neg hok]
        exact ih _ _ _ h

theorem altGo_pairwise (target count nalt : Nat) :
    ∀ fuel alts rng calls,
      alts.Pairwise (fun a b => sortedForm a ≠ sortedForm b) →
      (altGo target count nalt fuel alts rng calls).1.Pairwise
        (fun a b => sortedForm a ≠ sortedForm b) := by
  intro fuel
  induction fuel with
  | zero => intro alts rng calls h; simpa [altGo] using h
  | succ fuel ih =>
    intro alts rng calls h
    simp only [altGo]
    split
    · exact ih _ _ _ h
    · next dist hgen =>
      split
      · by_cases hdup : sortedForm dist ∈ alts.map sortedForm
        · rw [if_pos hdup]
          exact ih _ _ _ h
        · rw [if_neg hdup]
          have hnew : (alts ++ [dist]).Pairwise (fun a b => sortedForm a ≠ sortedForm b) := by
            rw [List.pairwise_append]
            refine ⟨h, by simp, ?_⟩
            intro a ha b hb
            rw [List.mem_singleton.mp hb]
            intro hcontra
            exact hdup (hcontra ▸ List.mem_map_of_mem sortedForm ha)
          split
          · exact hnew
          · exact ih _ _ _ hnew
      · exact ih _ _ _ h

theorem altGo_length_le (target count nalt : Nat) :
    ∀ fuel alts rng calls, alts.length < nalt →
      (altGo target count nalt fuel alts rng calls).1.length ≤ nalt := by
  intro fuel
  induction fuel with
  | zero =>
    intro alts rng calls h
    simp only [altGo]
    omega
  | succ fuel ih =>
    intro alts rng calls h
    simp only [altGo]
    split
    · exact ih _ _ _ h
    · next dist hgen =>
      split
      · split
        · exact ih _ _ _ h
        · split
          · simp only [List.length_append, List.length_singleton]
            omega
          · next hfull =>
            apply ih
            simp only [List.length_append, List.length_singleton] at hfull ⊢
            omega
      · exact ih _ _ _ h

theorem altGo_calls_le (target count nalt : Nat) :
    ∀ fuel alts rng calls,
      (altGo target count nalt fuel alts rng calls).2.2 ≤ calls + fuel := by
  intro fuel
  induction fuel with
  | zero => intro alts rng calls; simp [altGo]
  | succ fuel ih =>
    intro alts rng calls
    simp only [altGo]
    split
    · have := ih alts ((generateS target count rng).2.1) (calls + 1)
      omega
    · next dist hgen =>
      split
      · split
        · have := ih alts ((generateS target count rng).2.1) (calls + 1)
          omega
        · split
          · simp only
            omega
          · have := ih (alts ++ [dist]) ((generateS target count rng).2.1) (calls + 1)
            omega
      · have := ih alts ((generateS target count rng).2.1) (calls + 1)
        omega

/-! ### The claims -/

/-- C1, counterexample: the claim quantifies over every `target` with
`count * 250 ≤ target ≤ count * 2000`, but at `target = 251`, `count = 1`
(which satisfies those bounds) no sequence of random choices can make the
generator return a length-1 sequence over {250, 500, 1000, 2000} summing to
251, since such a sequence sums to one of the four denominations. -/
theorem c1_counterexample :
    (1 * 250 ≤ 251 ∧ 251 ≤ 1 * 2000) ∧
      ¬ ∃ (rng : Nat → Nat) (l : List Nat),
        generate_coupon_distribution rng 251 1 = some l ∧
        l.length = 1 ∧ (∀ x ∈ l, x ∈ COUPON_VALUES) ∧ l.sum = 251 := by
  refine ⟨by decide, ?_⟩
  rintro ⟨rng, l, hl, hlen, hmem, hsum⟩
  obtain ⟨a, rfl⟩ := List.length_eq_one.mp hlen
  have ha := hmem a (by simp)
  fin_cases ha <;> simp at hsum

/-- C1 (amended): for every target and count such that some multiset of
`count` values drawn from {250, 500, 1000, 2000} sums to `target` (the bounds
`count * 250 ≤ target ≤ count * 2000` alone are not enough), there exists a
sequence of random choices under which `generate_coupon_distribution(target,
count)` returns a sequence of length `count`, with every element in the
denomination set, summing exactly to `target`. -/
theorem c1_reaches_every_representable_target (target count : Nat)
    (hrep : ∃ l : List Nat, l.length = count ∧
      (∀ x ∈ l, x ∈ COUPON_VALUES) ∧ l.sum = target) :
    ∃ (rng : Nat → Nat) (l : List Nat),
      generate_coupon_distribution rng target count = some l ∧
      l.length = count ∧ (∀ x ∈ l, x ∈ COUPON_VALUES) ∧ l.sum = target :=
  generate_reaches target count hrep

/-- Witness for C1: target 750 with 2 coupons is representable as {500, 250},
and a favourable random stream indeed reaches it. -/
theorem c1_witness :
    ∃ (rng : Nat → Nat) (l : List Nat),
      generate_coupon_distribution rng 750 2 = some l ∧
      l.length = 2 ∧ (∀ x ∈ l, x ∈ COUPON_VALUES) ∧ l.sum = 750 :=
  c1_reaches_every_representable_target 750 2 ⟨[500, 250], by decide, by decide, by decide⟩

/-- C2: for every positive target and count with `target < count * 250`,
`generate_coupon_distribution` returns the sentinel `None` immediately, for
every sequence of random choices, consuming no randomness and leaving the
full 1000-round adjustment budget untouched. -/
theorem c2_infeasible_low_returns_none (rng : Nat → Nat) (target count : Nat)
    (h1 : 0 < target) (h2 : 0 < count) (h : target < count * 250) :
    generate_coupon_distribution rng target count = none ∧
      generateS target count rng = (none, rng, 1000) := by
  have he := generateS_eq_none target count rng (by rw [minCoupon_eq]; omega)
  exact ⟨by unfold generate_coupon_distribution; rw [he], he⟩

/-- Witness for C2 at the spec's concrete scenario target=100, count=1. -/
theorem c2_witness :
    generate_coupon_distribution (fun _ => 0) 100 1 = none ∧
      generateS 100 1 (fun _ => 0) = (none, fun _ => 0, 1000) :=
  c2_infeasible_low_returns_none (fun _ => 0) 100 1 (by decide) (by decide) (by decide)

/-- C3: for every positive target and count with `count * 250 ≤ target`, and
for every sequence of random choices, the generator returns a (non-None)
sequence of length exactly `count` whose elements all lie in the denomination
set {250, 500, 1000, 2000}. -/
theorem c3_length_and_membership (rng : Nat → Nat) (target count : Nat)
    (h1 : 0 < target) (h2 : 0 < count) (h3 : count * 250 ≤ target) :
    ∃ l, generate_coupon_distribution rng target count = some l ∧
      l.length = count ∧ ∀ x ∈ l, x ∈ COUPON_VALUES := by
  obtain ⟨l, hl, hlen, hmem, _⟩ := generate_some rng target count h3
  exact ⟨l, hl, hlen, hmem⟩

/-- Witness for C3 at target=1000, count=2 with an arbitrary stream. -/
theorem c3_witness :
    ∃ l, generate_coupon_distribution (fun _ => 0) 1000 2 = some l ∧
      l.length = 2 ∧ ∀ x ∈ l, x ∈ COUPON_VALUES :=
  c3_length_and_membership (fun _ => 0) 1000 2 (by decide) (by decide) (by decide)

/-- C4: every entry of the list returned by
`generate_alternative_combinations(target, count, max_alternatives)` sums
exactly to `target` and has length exactly `count`, for every sequence of
random choices. -/
theorem c4_alternatives_validate (rng : Nat → Nat) (target count nalt : Nat)
    (h1 : 0 < target) (h2 : 0 < count) (h3 : 0 < nalt) :
    ∀ l ∈ generate_alternative_combinations rng target count nalt,
      l.sum = target ∧ l.length = count := by
  exact altGo_sum_len target count nalt 100 [] rng 0 (by simp)

set_option maxRecDepth 100000 in
/-- Witness for C4 at target=1000, count=1, max_alternatives=5: the concrete
entry [1000] is produced there and validates. -/
theorem c4_witness :
    [1000] ∈ generate_alternative_combinations (fun _ => 0) 1000 1 5 ∧
      ([1000] : List Nat).sum = 1000 ∧ ([1000] : List Nat).length = 1 :=
  ⟨by decide, c4_alternatives_validate (fun _ => 0) 1000 1 5 (by decide) (by decide) (by decide)
    [1000] (by decide)⟩

/-- C5: no two distinct entries of the list returned by
`generate_alternative_combinations` have the same sorted form, for every
sequence of random choices. -/
theorem c5_alternatives_distinct (rng : Nat → Nat) (target count nalt : Nat)
    (h1 : 0 < target) (h2 : 0 < count) (h3 : 0 < nalt) :
    (generate_alternative_combinations rng target count nalt).Pairwise
      (fun a b => sortedForm a ≠ sortedForm b) := by
  exact altGo_pairwise target count nalt 100 [] rng 0 (by simp)

/-- Witness for C5 at target=1000, count=1, max_alternatives=5. -/
theorem c5_witness :
    (generate_alternative_combinations (fun _ => 0) 1000 1 5).Pairwise
      (fun a b => sortedForm a ≠ sortedForm b) :=
  c5_alternatives_distinct (fun _ => 0) 1000 1 5 (by decide) (by decide) (by decide)

/-- C6: the alternative builder returns at most `max_alternatives` entries and
invokes the distribution generator at most 100 times, for every sequence of
random choices. -/
theorem c6_alternatives_bounded (rng : Nat → Nat) (target count nalt : Nat)
    (h1 : 0 < target) (h2 : 0 < count) (h3 : 0 < nalt) :
    (generate_alternative_combinations rng target count nalt).length ≤ nalt ∧
      generatorInvocations rng target count nalt ≤ 100 := by
  constructor
  · exact altGo_length_le target count nalt 100 [] rng 0 (by simpa using h3)
  · simpa using altGo_calls_le target count nalt 100 [] rng 0

/-- Witness for C6 at target=1000, count=1, max_alternatives=5. -/
theorem c6_witness :
    (generate_alternative_combinations (fun _ => 0) 1000 1 5).length ≤ 5 ∧
      generatorInvocations (fun _ => 0) 1000 1 5 ≤ 100 :=
  c6_alternatives_bounded (fun _ => 0) 1000 1 5 (by decide) (by decide) (by decide)

/-- C7: for every target and count with `count * 2000 < target` there is no
up-front infeasibility signal: for every sequence of random choices the
generator returns a non-None sequence of length `count` whose sum differs
from `target`, and the 1000-round adjustment budget is fully exhausted
(the unused budget returned by `generateS` is 0). -/
theorem c7_over_max_exhausts_budget (rng : Nat → Nat) (target count : Nat)
    (h : count * 2000 < target) :
    ∃ l, generate_coupon_distribution rng target count = some l ∧
      l.length = count ∧ l.sum ≠ target ∧ (generateS target count rng).2.2 = 0 := by
  obtain ⟨l, hl, hlen, hsum, hbudget⟩ :=
    generate_over_budget rng target count (by omega)
  exact ⟨l, hl, hlen, by omega, hbudget⟩

/-- Witness for C7 at target=5000, count=2. -/
theorem c7_witness :
    ∃ l, generate_coupon_distribution (fun _ => 0) 5000 2 = some l ∧
      l.length = 2 ∧ l.sum ≠ 5000 ∧ (generateS 5000 2 (fun _ => 0)).2.2 = 0 :=
  c7_over_max_exhausts_budget (fun _ => 0) 5000 2 (by decide)

/-- C8: with the fixed denomination set, for every sequence of random
choices, `generate_coupon_distribution(1000, 1)` returns exactly `[1000]`. -/
theorem c8_target_1000_one_coupon (rng : Nat → Nat) :
    generate_coupon_distribution rng 1000 1 = some [1000] :=
  generate_1000_1 rng

/-- C9: with the fixed denomination set, for every sequence of random
choices, `generate_coupon_distribution(4000, 2)` returns `[2000, 2000]`,
the only feasible combination, within the adjustment budget. -/
theorem c9_target_4000_two_coupons (rng : Nat → Nat) :
    generate_coupon_distribution rng 4000 2 = some [2000, 2000] :=
  generate_4000_2 rng

/-- C10: for every positive target and count with `count * 250 ≤ target`, and
for every sequence of random choices, the returned sequence has sum at most
`target`: the search never overshoots. -/
theorem c10_never_overshoots (rng : Nat → Nat) (target count : Nat)
    (h1 : 0 < target) (h2 : 0 < count) (h3 : count * 250 ≤ target) :
    ∃ l, generate_coupon_distribution rng target count = some l ∧ l.sum ≤ target := by
  obtain ⟨l, hl, _, _, hsum⟩ := generate_some rng target count h3
  exact ⟨l, hl, hsum⟩

/-- Witness for C10 at target=1700, count=3. -/
theorem c10_witness :
    ∃ l, generate_coupon_distribution (fun _ => 1) 1700 3 = some l ∧ l.sum ≤ 1700 :=
  c10_never_overshoots (fun _ => 1) 1700 3 (by decide) (by decide) (by decide)

end Rshree
